import Mathlib

/-!
A verification development for the Bellande format parser/serializer
(`src/bellande_parser.rs`).  The Rust code is shallowly embedded:

* Rust `&str` / `String` values are modelled as `List Char` (named `Str`
  below).  Byte indices coincide with character indices for the ASCII
  inputs all the claims are about.
* Rust `char::is_whitespace` (used by `str::trim`) is modelled on the
  ASCII whitespace characters space, tab, line feed and carriage return;
  the remaining Unicode whitespace characters play no role in any claim.
* `std::collections::HashMap<String, BellandeValue>` is modelled as an
  association list with first-match lookup and replace-or-append
  insertion.  Lookup and insertion agree with `HashMap`; the *iteration
  order* of the model is insertion order, whereas the iteration order of
  `std::collections::HashMap` is unspecified (see claim C5).
* `f64` values are modelled by the source token that produced them and
  the Rust `f64` `Display` rendering is an arbitrary parameter `fd` of
  the serializer; no claim settled here depends on float arithmetic.
* Rust panics (the slice panic in `parse_value` and the
  `get_mut(..).unwrap()` panic in path navigation) are modelled by an
  `Except Panic` result with a distinct tag for each panic site.
-/

/-- Strings are modelled as lists of characters. -/
abbrev Str := List Char

/-- The double-quote character (code point 34). -/
def quoteChar : Char := Char.ofNat 34

/-- ASCII whitespace, as recognised by Rust `str::trim` on the inputs at
hand (space, tab, line feed, carriage return). -/
def isWs (c : Char) : Bool :=
  c = ' ' || c = '\t' || c = '\n' || c = '\r'

/-- Rust `str::trim_start`. -/
def trimLeft (s : Str) : Str := s.dropWhile isWs

/-- Rust `str::trim_end`. -/
def trimRight (s : Str) : Str := (s.reverse.dropWhile isWs).reverse

/-- Rust `str::trim`. -/
def trim (s : Str) : Str := trimRight (trimLeft s)

/-- Rust `line.len() - line.trim().len()`, the quantity the parser uses
as the indent of a line (`bellande_parser.rs` line 54). -/
def indentOf (line : Str) : Nat := line.length - (trim line).length

/-- The number of leading whitespace characters of a line. -/
def leadingWs (line : Str) : Nat := (line.takeWhile isWs).length

/-- The number of trailing whitespace characters of a line. -/
def trailingWs (line : Str) : Nat := (line.reverse.takeWhile isWs).length

/-- Rust `str::find(':')`: index of the first colon. -/
def findColon : Str → Option Nat
  | [] => none
  | c :: rest => if c = ':' then some 0 else (findColon rest).map (· + 1)

/-- ASCII lowercasing of one character (Rust `u8::to_ascii_lowercase`). -/
def lowerChar (c : Char) : Char :=
  if 'A' ≤ c ∧ c ≤ 'Z' then Char.ofNat (c.toNat + 32) else c

/-- ASCII lowercasing of a string. -/
def toLowerStr (s : Str) : Str := s.map lowerChar

/-- Rust `str::eq_ignore_ascii_case`. -/
def eqIgnoreCase (a b : Str) : Bool := toLowerStr a == toLowerStr b

/-- The literal `true`. -/
def litTrue : Str := ['t', 'r', 'u', 'e']

/-- The literal `false`. -/
def litFalse : Str := ['f', 'a', 'l', 's', 'e']

/-- The literal `null`. -/
def litNull : Str := ['n', 'u', 'l', 'l']

/-- ASCII decimal digit test (Rust `u8::is_ascii_digit`), spelled out so
that every fact about it is provable by tenfold case analysis. -/
def isDig (c : Char) : Bool :=
  c = '0' || c = '1' || c = '2' || c = '3' || c = '4' ||
  c = '5' || c = '6' || c = '7' || c = '8' || c = '9'

/-- The decimal digit character for a digit value below ten. -/
def digitChar : Nat → Char
  | 0 => '0' | 1 => '1' | 2 => '2' | 3 => '3' | 4 => '4'
  | 5 => '5' | 6 => '6' | 7 => '7' | 8 => '8' | 9 => '9'
  | _ => '*'

/-- The numeric value of a digit character. -/
def digVal (c : Char) : Nat := c.toNat - 48

/-- Accumulate the decimal value of a digit string; fails on the first
non-digit (the digit loop of Rust `i64::from_str`). -/
def parseDigitsAux : Str → Nat → Option Nat
  | [], acc => some acc
  | c :: cs, acc => if isDig c then parseDigitsAux cs (acc * 10 + digVal c) else none

/-- The pure accumulating fold of `parseDigitsAux`, used for reasoning. -/
def digitsVal (s : Str) (acc : Nat) : Nat :=
  s.foldl (fun a c => a * 10 + digVal c) acc

/-- Split an optional leading sign character (Rust `i64::from_str` /
`f64::from_str` sign handling); returns (negative?, remainder). -/
def splitSign (s : Str) : Bool × Str :=
  match s with
  | [] => (false, [])
  | c :: rest =>
    if c = '-' then (true, rest)
    else if c = '+' then (false, rest)
    else (false, c :: rest)

/-- Rust `str::parse::<i64>()`: optional sign, one or more ASCII digits,
value within the signed 64-bit range. -/
def parseI64 (s : Str) : Option Int :=
  let p := splitSign s
  if p.2 = [] then none
  else
    match parseDigitsAux p.2 0 with
    | none => none
    | some n =>
      let v : Int := if p.1 then -(n : Int) else (n : Int)
      if -9223372036854775808 ≤ v ∧ v ≤ 9223372036854775807 then some v else none

/-- One or more ASCII digits. -/
def digitsOnly (s : Str) : Bool := !s.isEmpty && s.all isDig

/-- The exponent part of the Rust `f64` grammar: optional sign then one
or more digits. -/
def expAccept (s : Str) : Bool := digitsOnly (splitSign s).2

/-- Split a string at the first dot, if any. -/
def splitDot : Str → Option (Str × Str)
  | [] => none
  | c :: rest =>
    if c = '.' then some ([], rest)
    else (splitDot rest).map (fun p => (c :: p.1, p.2))

/-- The mantissa of the Rust `f64` grammar: `digit+`, `digit+ '.'
digit*` or `digit* '.' digit+`. -/
def mantAccept (s : Str) : Bool :=
  match splitDot s with
  | none => digitsOnly s
  | some (a, b) =>
    (a.all isDig && b.all isDig) && (!a.isEmpty || !b.isEmpty)

/-- Split a string at the first `e`/`E`, if any. -/
def splitExpIdx : Str → Option (Str × Str)
  | [] => none
  | c :: rest =>
    if c = 'e' ∨ c = 'E' then some ([], rest)
    else (splitExpIdx rest).map (fun p => (c :: p.1, p.2))

/-- Acceptance of Rust `str::parse::<f64>()`: optional sign, then
(case-insensitively) `inf`, `infinity` or `nan`, or a decimal mantissa
with an optional exponent.  Only acceptance matters to the claims; the
produced `f64` value is represented by the token itself. -/
def floatAccept (s : Str) : Bool :=
  let body := (splitSign s).2
  if eqIgnoreCase body ['i', 'n', 'f'] ||
     eqIgnoreCase body ['i', 'n', 'f', 'i', 'n', 'i', 't', 'y'] ||
     eqIgnoreCase body ['n', 'a', 'n'] then true
  else
    match splitExpIdx body with
    | none => mantAccept body
    | some (m, e) => mantAccept m && expAccept e

/-- The value tree of `bellande_parser.rs` (`enum BellandeValue`).  The
`float` payload is the source token that produced the value; `map` is
the association-list model of `HashMap<String, BellandeValue>`. -/
inductive BellandeValue where
  | str : Str → BellandeValue
  | int : Int → BellandeValue
  | float : Str → BellandeValue
  | bool : Bool → BellandeValue
  | null : BellandeValue
  | list : List BellandeValue → BellandeValue
  | map : List (Str × BellandeValue) → BellandeValue

/-- Scalar test: neither a list nor a map. -/
def isScalar : BellandeValue → Bool
  | .list _ => false
  | .map _ => false
  | _ => true

/-- Map test. -/
def isMap : BellandeValue → Bool
  | .map _ => true
  | _ => false

/-- `HashMap::get` / `get_mut`: first binding of the key. -/
def mget : List (Str × BellandeValue) → Str → Option BellandeValue
  | [], _ => none
  | (k, v) :: tl, key => if k = key then some v else mget tl key

/-- `HashMap::insert`: replace the binding of an existing key, append a
binding for a new key. -/
def minsert : List (Str × BellandeValue) → Str → BellandeValue →
    List (Str × BellandeValue)
  | [], key, v => [(key, v)]
  | (k, w) :: tl, key, v =>
    if k = key then (k, v) :: tl else (k, w) :: minsert tl key v

/-- The scalar lexer `parse_value` (`bellande_parser.rs` lines 127-143).
Returns `none` exactly where the Rust code panics: when the token is the
single character `"`, both `starts_with('"')` and `ends_with('"')` hold
and the slice `value[1..value.len()-1]` has its start index past its end
index. -/
def parse_value (value : Str) : Option BellandeValue :=
  if eqIgnoreCase value litTrue then some (.bool true)
  else if eqIgnoreCase value litFalse then some (.bool false)
  else if eqIgnoreCase value litNull then some .null
  else if value.head? = some quoteChar ∧ value.getLast? = some quoteChar then
    if 2 ≤ value.length then some (.str (value.drop 1).dropLast) else none
  else
    match parseI64 value with
    | some i => some (.int i)
    | none => if floatAccept value then some (.float value) else some (.str value)

/-- The two panic sites of the parser: the slice panic in `parse_value`
(`lexPanic`) and the `get_mut(..).unwrap()` panic during path navigation
(`navPanic`). -/
inductive Panic where
  | lexPanic : Panic
  | navPanic : Panic
deriving DecidableEq

/-- The scope stack: `(indent, key)` pairs, bottom of the Rust `Vec`
first (so `Vec::last` is `List.getLast?` and `iter().skip(1)` is
`List.tail`). -/
abbrev Stack := List (Nat × Str)

/-- The dedent loop on the reversed stack (top first): pop while the top
entry records an indent `≥` the current line's indent. -/
def popWhileRev (indent : Nat) : Stack → Stack
  | [] => []
  | e :: tl => if indent ≤ e.1 then popWhileRev indent tl else e :: tl

/-- The dedent loop of `parse_lines` (`bellande_parser.rs` lines 56-62):
`while let Some(&(last_indent, _)) = stack.last() { if indent <=
last_indent { stack.pop(); } else { break; } }`.  Note there is no guard
keeping the synthetic root entry on the stack. -/
def popWhile (indent : Nat) (stack : Stack) : Stack :=
  (popWhileRev indent stack.reverse).reverse

/-- Path navigation plus final insertion, the body of `insert_value`
(`bellande_parser.rs` lines 89-105).  The path is walked with
`if let Map(map) = current { current = map.get_mut(path_key).unwrap() }`,
so a non-map `current` is carried past the remaining path keys
unchanged; `none` models the `unwrap` panic on a missing key. -/
def insertAt : BellandeValue → List Str → Str → BellandeValue →
    Option BellandeValue
  | .map m, [], key, v => some (.map (minsert m key v))
  | .map m, k :: ks, key, v =>
    match mget m k with
    | none => none
    | some child => (insertAt child ks key v).map (fun c => .map (minsert m k c))
  | other, [], _, _ => some other
  | other, _ :: ks, key, v => insertAt other ks key v

/-- `insert_value`: navigate `stack.iter().skip(1)` from the root, then
insert into the final map (if the final position is a map at all). -/
def insert_value (root : BellandeValue) (stack : Stack) (key : Str)
    (v : BellandeValue) : Option BellandeValue :=
  insertAt root (stack.tail.map Prod.snd) key v

/-- Path navigation plus final list append, the body of `append_to_list`
(`bellande_parser.rs` lines 107-125).  The final step pushes onto the
list stored under `key` if there is one, and otherwise does nothing. -/
def appendAt : BellandeValue → List Str → Str → BellandeValue →
    Option BellandeValue
  | .map m, [], key, v =>
    match mget m key with
    | some (.list l) => some (.map (minsert m key (.list (l ++ [v]))))
    | _ => some (.map m)
  | .map m, k :: ks, key, v =>
    match mget m k with
    | none => none
    | some child => (appendAt child ks key v).map (fun c => .map (minsert m k c))
  | other, [], _, _ => some other
  | other, _ :: ks, key, v => appendAt other ks key v

/-- `append_to_list`: navigate `stack.iter().skip(1)` from the root,
then append to the list under `key`. -/
def append_to_list (root : BellandeValue) (stack : Stack) (key : Str)
    (v : BellandeValue) : Option BellandeValue :=
  appendAt root (stack.tail.map Prod.snd) key v

/-- Parser state: the growing root value and the scope stack. -/
abbrev ParseState := BellandeValue × Stack

/-- One iteration of the line loop of `parse_lines`
(`bellande_parser.rs` lines 48-84): skip blank and comment lines,
compute the indent, run the dedent loop, then classify the line as a key
line (first colon), an item line (leading dash) or neither (silently
skipped). -/
def processLine (st : ParseState) (line : Str) : Except Panic ParseState :=
  let root := st.1
  let stack := st.2
  let stripped := trim line
  if stripped = [] then .ok st
  else if stripped.head? = some '#' then .ok st
  else
    let indent := line.length - stripped.length
    let stack := popWhile indent stack
    match findColon stripped with
    | some colonPos =>
      let key := trim (stripped.take colonPos)
      let value := trim (stripped.drop (colonPos + 1))
      if value = [] then
        match insert_value root stack key (.list []) with
        | none => .error .navPanic
        | some root' => .ok (root', stack ++ [(indent, key)])
      else
        match parse_value value with
        | none => .error .lexPanic
        | some pv =>
          match insert_value root stack key pv with
          | none => .error .navPanic
          | some root' => .ok (root', stack)
    | none =>
      if stripped.head? = some '-' then
        match parse_value (trim (stripped.drop 1)) with
        | none => .error .lexPanic
        | some pv =>
          match stack.getLast? with
          | some e =>
            match append_to_list root stack e.2 pv with
            | none => .error .navPanic
            | some root' => .ok (root', stack)
          | none => .ok (root, stack)
      else .ok (root, stack)

/-- Fold `processLine` over the lines of the document. -/
def parseSteps (st : ParseState) : List Str → Except Panic ParseState
  | [] => .ok st
  | l :: ls =>
    match processLine st l with
    | .error e => .error e
    | .ok st' => parseSteps st' ls

/-- The initial state of `parse_lines`: an empty root map and the stack
`vec![(0, String::new())]`. -/
def initState : ParseState := (.map [], [(0, ([] : Str))])

/-- `parse_lines` (`bellande_parser.rs` lines 44-87). -/
def parse_lines (ls : List Str) : Except Panic BellandeValue :=
  match parseSteps initState ls with
  | .error e => .error e
  | .ok st => .ok st.1

/-- Big-endian decimal digits of a positive number, with fuel (`fuel ≥ n`
suffices). -/
def natToStrGo : Nat → Nat → Str
  | _, 0 => []
  | 0, _ + 1 => []
  | fuel + 1, n + 1 => natToStrGo fuel ((n + 1) / 10) ++ [digitChar ((n + 1) % 10)]

/-- Decimal rendering of a natural number. -/
def natToStr (n : Nat) : Str := if n = 0 then ['0'] else natToStrGo n n

/-- Rust `i64::to_string()`. -/
def intToString (i : Int) : Str :=
  if i < 0 then '-' :: natToStr i.natAbs else natToStr i.toNat

/-- `" ".repeat(indent)`. -/
def spaces (n : Nat) : Str := List.replicate n ' '

/-- `Vec::join("\n")`. -/
def joinNL : List Str → Str
  | [] => []
  | l :: ls =>
    match ls with
    | [] => l
    | _ :: _ => l ++ '\n' :: joinNL ls

/-- The scalar formatter `format_value` (`bellande_parser.rs` lines
184-202), parameterised by the Rust `f64` `Display` rendering `fd`.  The
`list`/`map` branches are `unreachable!()` in the source; the serializer
below never takes them, and no theorem relies on their value here. -/
def format_value (fd : Str → Str) : BellandeValue → Str
  | .str s =>
    if s.contains ' ' || s.contains ':' ||
       (toLowerStr s == litTrue || toLowerStr s == litFalse ||
        toLowerStr s == litNull) then
      quoteChar :: s ++ [quoteChar]
    else s
  | .int i => intToString i
  | .float f => fd f
  | .bool b => if b then litTrue else litFalse
  | .null => litNull
  | .list _ => []
  | .map _ => []

mutual

/-- The serializer `to_bellande_string` (`bellande_parser.rs` lines
154-182). -/
def to_bellande_string (fd : Str → Str) : BellandeValue → Nat → Str
  | .map m, ind => joinNL (mapLines fd m ind)
  | .list l, ind => joinNL (listLines fd l ind)
  | .str s, _ => format_value fd (.str s)
  | .int i, _ => format_value fd (.int i)
  | .float f, _ => format_value fd (.float f)
  | .bool b, _ => format_value fd (.bool b)
  | .null, _ => format_value fd .null

/-- One output line per map entry:
`format!("{}{}: {}", " ".repeat(indent), key, value_str)` where
`value_str` is `valueStrOf` below. -/
def mapLines (fd : Str → Str) : List (Str × BellandeValue) → Nat → List Str
  | [], _ => []
  | (k, v) :: tl, ind =>
    (spaces ind ++ k ++ [':', ' '] ++ valueStrOf fd v ind) :: mapLines fd tl ind

/-- The `value_str` of a map entry: `format!("\n{}", recursive)` for a
map or list value and `format!(" {}", format_value(value))` for a
scalar.  The recursive serializer call is inlined here (it is
definitionally `to_bellande_string` at `indent + 2`) so that the mutual
recursion descends strictly along the value. -/
def valueStrOf (fd : Str → Str) : BellandeValue → Nat → Str
  | .map m, ind => '\n' :: joinNL (mapLines fd m (ind + 2))
  | .list l, ind => '\n' :: joinNL (listLines fd l (ind + 2))
  | .str s, _ => ' ' :: format_value fd (.str s)
  | .int i, _ => ' ' :: format_value fd (.int i)
  | .float f, _ => ' ' :: format_value fd (.float f)
  | .bool b, _ => ' ' :: format_value fd (.bool b)
  | .null, _ => ' ' :: format_value fd .null

/-- One output line per list item:
`format!("{}- {}", " ".repeat(indent), to_bellande_string(item, indent + 2))`. -/
def listLines (fd : Str → Str) : List BellandeValue → Nat → List Str
  | [], _ => []
  | item :: tl, ind =>
    (spaces ind ++ '-' :: ' ' :: to_bellande_string fd item (ind + 2)) ::
      listLines fd tl ind

end

/-- Strip one trailing carriage return (Rust `str::lines` does this per
line). -/
def stripCr (l : Str) : Str := if l.getLast? = some '\r' then l.dropLast else l

/-- Split at every line feed. -/
def splitNl : Str → List Str
  | [] => [[]]
  | c :: rest =>
    if c = '\n' then [] :: splitNl rest
    else
      match splitNl rest with
      | [] => [[c]]
      | l :: ls => (c :: l) :: ls

/-- Rust `str::lines()`: split at line feeds, drop a final empty segment
produced by a trailing line feed, strip one trailing carriage return per
line; the empty string has no lines. -/
def strLines (s : Str) : List Str :=
  if s = [] then []
  else
    let parts := if s.getLast? = some '\n' then (splitNl s).dropLast else splitNl s
    parts.map stripCr

/-- A value is flat when it is a scalar or a list of scalars; every
value the parser ever stores under a key is flat. -/
def flatVal (v : BellandeValue) : Prop :=
  isScalar v = true ∨ ∃ l, v = .list l ∧ ∀ x ∈ l, isScalar x = true

/-- Every value of the map is flat. -/
def valuesFlat (m : List (Str × BellandeValue)) : Prop := ∀ p ∈ m, flatVal p.2

/-- The key of the second stack entry (the first one skipped past the
synthetic bottom entry by `iter().skip(1)`) is bound in the root map;
this is what keeps `get_mut(..).unwrap()` from panicking. -/
def stackOk (m : List (Str × BellandeValue)) (stack : Stack) : Prop :=
  ∀ e : Nat × Str, stack.tail.head? = some e → (mget m e.2).isSome

/-- The parser-state invariant: the root is a map of flat values and the
stack satisfies `stackOk`. -/
def InvState (st : ParseState) : Prop :=
  ∃ m, st.1 = .map m ∧ valuesFlat m ∧ stackOk m st.2

/-- Scalars whose canonical rendering re-lexes to the same value:
64-bit-range integers, booleans and null. -/
def scalarOkValue (v : BellandeValue) : Prop :=
  (∃ i, v = .int i ∧ -9223372036854775808 ≤ i ∧ i ≤ 9223372036854775807) ∨
  (∃ b, v = .bool b) ∨ v = .null

/-- Keys that survive the round trip: no whitespace, no colon, no hash
character anywhere. -/
def plainKey (k : Str) : Prop := ∀ c ∈ k, isWs c = false ∧ c ≠ ':' ∧ c ≠ '#'

/-! ### Basic facts about trimming -/

theorem trimLeft_of_head (s : Str)
    (h : ∀ c, s.head? = some c → isWs c = false) : trimLeft s = s := by
  cases s with
  | nil => rfl
  | cons c t => simp [trimLeft, List.dropWhile_cons, h c rfl]

theorem trimRight_of_getLast (s : Str)
    (h : ∀ c, s.getLast? = some c → isWs c = false) : trimRight s = s := by
  have hh : ∀ c, s.reverse.head? = some c → isWs c = false := by
    intro c hc
    exact h c (by rwa [List.head?_reverse] at hc)
  have := trimLeft_of_head s.reverse hh
  simp only [trimLeft] at this
  simp [trimRight, this]

theorem trim_of_ends (s : Str)
    (h1 : ∀ c, s.head? = some c → isWs c = false)
    (h2 : ∀ c, s.getLast? = some c → isWs c = false) : trim s = s := by
  rw [trim, trimLeft_of_head s h1, trimRight_of_getLast s h2]

theorem length_trimLeft (s : Str) : (trimLeft s).length = s.length - leadingWs s := by
  have h := congrArg List.length (List.takeWhile_append_dropWhile (p := isWs) (l := s))
  simp only [List.length_append] at h
  simp only [trimLeft, leadingWs]
  omega

theorem length_trimRight (s : Str) :
    (trimRight s).length = s.length - trailingWs s := by
  have h := congrArg List.length
    (List.takeWhile_append_dropWhile (p := isWs) (l := s.reverse))
  simp only [List.length_append, List.length_reverse] at h
  simp only [trimRight, trailingWs, List.length_reverse]
  omega

theorem leadingWs_le (s : Str) : leadingWs s ≤ s.length := by
  have h := congrArg List.length (List.takeWhile_append_dropWhile (p := isWs) (l := s))
  simp only [List.length_append] at h
  simp only [leadingWs]
  omega

theorem trailingWs_le (s : Str) : trailingWs s ≤ s.length := by
  have h := congrArg List.length
    (List.takeWhile_append_dropWhile (p := isWs) (l := s.reverse))
  simp only [List.length_append, List.length_reverse] at h
  simp only [trailingWs]
  omega

/-! ### Digit facts -/

theorem digitChar_facts (d : Nat) (h : d < 10) :
    isDig (digitChar d) = true ∧ digVal (digitChar d) = d := by
  interval_cases d <;> exact ⟨by decide, by decide⟩

theorem isDig_cases (c : Char) (h : isDig c = true) :
    c = '0' ∨ c = '1' ∨ c = '2' ∨ c = '3' ∨ c = '4' ∨
    c = '5' ∨ c = '6' ∨ c = '7' ∨ c = '8' ∨ c = '9' := by
  simpa [isDig, or_assoc] using h

theorem isDig_token_facts (c : Char) (h : isDig c = true) :
    isWs c = false ∧ c ≠ ':' ∧ c ≠ '#' ∧ c ≠ '-' ∧ c ≠ '+' ∧
    c ≠ quoteChar ∧ lowerChar c = c ∧ c ≠ 't' ∧ c ≠ 'f' ∧ c ≠ 'n' := by
  rcases isDig_cases c h with h | h | h | h | h | h | h | h | h | h <;>
    subst h <;> refine ⟨by decide, by decide, by decide, by decide, by decide,
      by decide, by decide, by decide, by decide, by decide⟩

theorem parseDigitsAux_of_all (s : Str) :
    ∀ acc, s.all isDig = true → parseDigitsAux s acc = some (digitsVal s acc) := by
  induction s with
  | nil => intro acc _; rfl
  | cons c cs ih =>
    intro acc h
    rw [List.all_cons, Bool.and_eq_true] at h
    have hv : digitsVal (c :: cs) acc = digitsVal cs (acc * 10 + digVal c) := rfl
    simp only [parseDigitsAux, h.1, if_true, hv, ih _ h.2]

theorem digitsVal_append (s t : Str) (acc : Nat) :
    digitsVal (s ++ t) acc = digitsVal t (digitsVal s acc) := by
  simp [digitsVal, List.foldl_append]

theorem natToStrGo_all (fuel : Nat) :
    ∀ n, n ≤ fuel → (natToStrGo fuel n).all isDig = true := by
  induction fuel with
  | zero =>
    intro n hn
    interval_cases n
    rfl
  | succ fuel ih =>
    intro n hn
    cases n with
    | zero => rfl
    | succ m =>
      have hd : (m + 1) / 10 ≤ fuel := by
        have : (m + 1) / 10 < m + 1 := Nat.div_lt_self (Nat.succ_pos m) (by norm_num)
        omega
      have hdig := (digitChar_facts ((m + 1) % 10) (Nat.mod_lt _ (by norm_num))).1
      simp [natToStrGo, List.all_append, ih _ hd, hdig]

theorem natToStrGo_val (fuel : Nat) :
    ∀ n acc, 0 < n → n ≤ fuel →
      digitsVal (natToStrGo fuel n) acc =
        acc * 10 ^ (natToStrGo fuel n).length + n := by
  induction fuel with
  | zero => intro n acc h1 h2; omega
  | succ fuel ih =>
    intro n acc h1 h2
    cases n with
    | zero => omega
    | succ m =>
      have hq : (m + 1) / 10 < m + 1 := Nat.div_lt_self (Nat.succ_pos m) (by norm_num)
      have hr : (m + 1) % 10 < 10 := Nat.mod_lt _ (by norm_num)
      have hdig := (digitChar_facts ((m + 1) % 10) hr).2
      have hdm := Nat.div_add_mod (m + 1) 10
      have hgo : natToStrGo (fuel + 1) (m + 1)
          = natToStrGo fuel ((m + 1) / 10) ++ [digitChar ((m + 1) % 10)] := rfl
      rw [hgo, digitsVal_append, List.length_append]
      by_cases hq0 : (m + 1) / 10 = 0
      · rw [hq0]
        have hgo0 : natToStrGo fuel 0 = ([] : Str) := by cases fuel <;> rfl
        rw [hgo0]
        simp only [List.foldl_nil, List.length_nil, List.length_cons, digitsVal,
          List.foldl_cons, hdig]
        rw [Nat.zero_add, pow_one]
        omega
      · have hle : (m + 1) / 10 ≤ fuel := by omega
        have ihv := ih ((m + 1) / 10) acc (Nat.pos_of_ne_zero hq0) hle
        simp only [digitsVal, List.foldl_cons, List.foldl_nil, List.length_cons,
          List.length_nil, Nat.zero_add] at ihv ⊢
        rw [ihv, hdig]
        have hexp : (acc * 10 ^ (natToStrGo fuel ((m + 1) / 10)).length + (m + 1) / 10) * 10
            = acc * 10 ^ ((natToStrGo fuel ((m + 1) / 10)).length + 1)
              + (m + 1) / 10 * 10 := by
          ring
        omega

/-! ### Decimal printing round trip -/

theorem natToStr_all (n : Nat) : (natToStr n).all isDig = true := by
  by_cases h : n = 0
  · subst h; decide
  · simp only [natToStr, if_neg h]
    exact natToStrGo_all n n le_rfl

theorem parseDigitsAux_natToStr (n : Nat) : parseDigitsAux (natToStr n) 0 = some n := by
  by_cases h : n = 0
  · subst h; decide
  · rw [parseDigitsAux_of_all _ _ (natToStr_all n)]
    congr 1
    simp only [natToStr, if_neg h]
    have hv := natToStrGo_val n n 0 (Nat.pos_of_ne_zero h) le_rfl
    simpa using hv

theorem natToStr_ne_nil (n : Nat) : natToStr n ≠ [] := by
  by_cases h : n = 0
  · subst h; decide
  · simp only [natToStr, if_neg h]
    intro hnil
    have hv := natToStrGo_val n n 0 (Nat.pos_of_ne_zero h) le_rfl
    rw [hnil] at hv
    simp [digitsVal] at hv
    omega

theorem natToStr_head_dig (n : Nat) :
    ∃ c rest, natToStr n = c :: rest ∧ isDig c = true := by
  rcases hs : natToStr n with _ | ⟨c, rest⟩
  · exact absurd hs (natToStr_ne_nil n)
  · refine ⟨c, rest, rfl, ?_⟩
    have := natToStr_all n
    rw [hs, List.all_cons, Bool.and_eq_true] at this
    exact this.1

theorem intToString_shape (i : Int) :
    ∃ c rest, intToString i = c :: rest ∧ (c = '-' ∨ isDig c = true) := by
  by_cases h : i < 0
  · exact ⟨'-', natToStr i.natAbs, by simp [intToString, h], Or.inl rfl⟩
  · rcases natToStr_head_dig i.toNat with ⟨c, rest, hcr, hc⟩
    exact ⟨c, rest, by simp [intToString, h, hcr], Or.inr hc⟩

theorem tokenHead_facts (c : Char) (h : c = '-' ∨ isDig c = true) :
    isWs c = false ∧ lowerChar c ≠ 't' ∧ lowerChar c ≠ 'f' ∧ lowerChar c ≠ 'n' ∧
    c ≠ quoteChar ∧ c ≠ ':' ∧ c ≠ '#' ∧ c ≠ '-' ∨
    isWs c = false ∧ lowerChar c ≠ 't' ∧ lowerChar c ≠ 'f' ∧ lowerChar c ≠ 'n' ∧
    c ≠ quoteChar ∧ c ≠ ':' ∧ c ≠ '#' ∧ c = '-' := by
  rcases h with h | h
  · subst h
    exact Or.inr ⟨by decide, by decide, by decide, by decide, by decide, by decide,
      by decide, rfl⟩
  · have hf := isDig_token_facts c h
    refine Or.inl ⟨hf.1, ?_, ?_, ?_, hf.2.2.2.2.2.1, hf.2.1, hf.2.2.1, hf.2.2.2.1⟩
    · rw [hf.2.2.2.2.2.2.1]; exact hf.2.2.2.2.2.2.2.1
    · rw [hf.2.2.2.2.2.2.1]; exact hf.2.2.2.2.2.2.2.2.1
    · rw [hf.2.2.2.2.2.2.1]; exact hf.2.2.2.2.2.2.2.2.2

theorem splitSign_no_sign (c : Char) (rest : Str) (h1 : c ≠ '-') (h2 : c ≠ '+') :
    splitSign (c :: rest) = (false, c :: rest) := by
  simp [splitSign, h1, h2]

theorem parseI64_intToString (i : Int)
    (h1 : -9223372036854775808 ≤ i) (h2 : i ≤ 9223372036854775807) :
    parseI64 (intToString i) = some i := by
  by_cases hneg : i < 0
  · have hits : intToString i = '-' :: natToStr i.natAbs := by simp [intToString, hneg]
    have hss : splitSign ('-' :: natToStr i.natAbs) = (true, natToStr i.natAbs) := by
      simp [splitSign]
    rw [hits]
    simp only [parseI64, hss, if_neg (natToStr_ne_nil i.natAbs),
      parseDigitsAux_natToStr]
    have hv : -((i.natAbs : Nat) : Int) = i := by omega
    simp [hv, h1, h2]
    rw [abs_of_nonpos (le_of_lt hneg)]
    refine ⟨⟨by omega, by omega⟩, by omega⟩
  · have hits : intToString i = natToStr i.toNat := by simp [intToString, hneg]
    rcases natToStr_head_dig i.toNat with ⟨c, rest, hcr, hc⟩
    have hf := isDig_token_facts c hc
    have hss : splitSign (natToStr i.toNat) = (false, natToStr i.toNat) := by
      rw [hcr]; exact splitSign_no_sign c rest hf.2.2.2.1 hf.2.2.2.2.1
    rw [hits]
    simp only [parseI64, hss, if_neg (natToStr_ne_nil i.toNat),
      parseDigitsAux_natToStr]
    have hv : ((i.toNat : Nat) : Int) = i := by omega
    simp [hv, h1, h2]

/-! ### Routing facts for `parse_value` -/

theorem eqIgnoreCase_false_head (a b : Char) (s t : Str)
    (h : lowerChar a ≠ lowerChar b) : eqIgnoreCase (a :: s) (b :: t) = false := by
  simp only [eqIgnoreCase, toLowerStr, List.map_cons]
  rw [beq_eq_false_iff_ne]
  intro hc
  injection hc with h1 _
  exact h h1

theorem parse_value_intToString (i : Int)
    (h1 : -9223372036854775808 ≤ i) (h2 : i ≤ 9223372036854775807) :
    parse_value (intToString i) = some (.int i) := by
  rcases intToString_shape i with ⟨c, rest, hcr, hcases⟩
  have hf' : isWs c = false ∧ lowerChar c ≠ 't' ∧ lowerChar c ≠ 'f' ∧
      lowerChar c ≠ 'n' ∧ c ≠ quoteChar ∧ c ≠ ':' ∧ c ≠ '#' := by
    rcases tokenHead_facts c hcases with hf | hf <;>
      exact ⟨hf.1, hf.2.1, hf.2.2.1, hf.2.2.2.1, hf.2.2.2.2.1, hf.2.2.2.2.2.1,
        hf.2.2.2.2.2.2.1⟩
  have e1 : eqIgnoreCase (c :: rest) litTrue = false :=
    eqIgnoreCase_false_head c 't' rest ['r', 'u', 'e']
      (by rw [show lowerChar 't' = 't' from by decide]; exact hf'.2.1)
  have e2 : eqIgnoreCase (c :: rest) litFalse = false :=
    eqIgnoreCase_false_head c 'f' rest ['a', 'l', 's', 'e']
      (by rw [show lowerChar 'f' = 'f' from by decide]; exact hf'.2.2.1)
  have e3 : eqIgnoreCase (c :: rest) litNull = false :=
    eqIgnoreCase_false_head c 'n' rest ['u', 'l', 'l']
      (by rw [show lowerChar 'n' = 'n' from by decide]; exact hf'.2.2.2.1)
  have hq : ¬((c :: rest).head? = some quoteChar ∧
      (c :: rest).getLast? = some quoteChar) := by
    intro hcontra
    rcases hcontra with ⟨hh, _⟩
    simp only [List.head?_cons, Option.some.injEq] at hh
    exact hf'.2.2.2.2.1 hh
  rw [parse_value, hcr]
  simp only [e1, e2, e3, Bool.false_eq_true, if_false, if_neg hq]
  rw [← hcr, parseI64_intToString i h1 h2]

/-! ### Association-list map facts -/

theorem mget_minsert_self (m : List (Str × BellandeValue)) (k : Str) (v : BellandeValue) :
    mget (minsert m k v) k = some v := by
  induction m with
  | nil => simp [minsert, mget]
  | cons p tl ih =>
    obtain ⟨k', w⟩ := p
    by_cases h : k' = k
    · subst h; simp [minsert, mget]
    · simp [minsert, mget, h, ih]

theorem mget_minsert_ne (m : List (Str × BellandeValue)) (k k' : Str)
    (v : BellandeValue) (h : k ≠ k') :
    mget (minsert m k v) k' = mget m k' := by
  induction m with
  | nil => simp [minsert, mget, h]
  | cons p tl ih =>
    obtain ⟨k0, w⟩ := p
    by_cases h0 : k0 = k
    · subst h0; simp [minsert, mget, h]
    · simp [minsert, mget, h0, ih]

theorem mget_minsert_isSome (m : List (Str × BellandeValue)) (k k' : Str)
    (v : BellandeValue) (h : (mget m k').isSome) :
    (mget (minsert m k v) k').isSome := by
  by_cases hk : k = k'
  · subst hk; simp [mget_minsert_self]
  · rwa [mget_minsert_ne m k k' v hk]

theorem minsert_self_of_get (m : List (Str × BellandeValue)) (k : Str)
    (w : BellandeValue) (h : mget m k = some w) : minsert m k w = m := by
  induction m with
  | nil => simp [mget] at h
  | cons p tl ih =>
    obtain ⟨k0, w0⟩ := p
    by_cases h0 : k0 = k
    · subst h0
      have hw : w0 = w := by simpa [mget] using h
      subst hw
      simp [minsert]
    · simp only [mget, if_neg h0] at h
      simp [minsert, h0, ih h]

theorem minsert_of_absent (m : List (Str × BellandeValue)) (k : Str)
    (v : BellandeValue) (h : mget m k = none) : minsert m k v = m ++ [(k, v)] := by
  induction m with
  | nil => simp [minsert]
  | cons p tl ih =>
    obtain ⟨k0, w0⟩ := p
    by_cases h0 : k0 = k
    · subst h0; simp [mget] at h
    · simp only [mget, if_neg h0] at h
      simp [minsert, h0, ih h]

theorem mem_minsert (m : List (Str × BellandeValue)) (k : Str) (v : BellandeValue)
    (p : Str × BellandeValue) (h : p ∈ minsert m k v) : p = (k, v) ∨ p ∈ m := by
  induction m with
  | nil => simpa [minsert] using h
  | cons q tl ih =>
    obtain ⟨k0, w0⟩ := q
    by_cases h0 : k0 = k
    · subst h0
      rw [show minsert ((k0, w0) :: tl) k0 v = (k0, v) :: tl from by simp [minsert]] at h
      rcases List.mem_cons.mp h with h | h
      · exact Or.inl h
      · exact Or.inr (List.mem_cons_of_mem _ h)
    · simp only [minsert, if_neg h0, List.mem_cons] at h
      rcases h with h | h
      · subst h; exact Or.inr (List.mem_cons_self _ _)
      · rcases ih h with h' | h'
        · exact Or.inl h'
        · exact Or.inr (List.mem_cons_of_mem _ h')

theorem mget_mem (m : List (Str × BellandeValue)) (k : Str) (w : BellandeValue)
    (h : mget m k = some w) : (k, w) ∈ m := by
  induction m with
  | nil => simp [mget] at h
  | cons p tl ih =>
    obtain ⟨k0, w0⟩ := p
    by_cases h0 : k0 = k
    · subst h0
      have hw : w0 = w := by simpa [mget] using h
      subst hw
      exact List.mem_cons_self _ _
    · simp only [mget, if_neg h0] at h
      exact List.mem_cons_of_mem _ (ih h)

/-! ### Dedent-loop facts -/

theorem popWhileRev_zero (l : Stack) : popWhileRev 0 l = [] := by
  induction l with
  | nil => rfl
  | cons e tl ih => simp [popWhileRev, Nat.zero_le, ih]

theorem popWhile_zero (st : Stack) : popWhile 0 st = [] := by
  simp [popWhile, popWhileRev_zero]

theorem popWhileRev_suffix (ind : Nat) (l : Stack) :
    ∃ t, l = t ++ popWhileRev ind l := by
  induction l with
  | nil => exact ⟨[], rfl⟩
  | cons e tl ih =>
    by_cases h : ind ≤ e.1
    · obtain ⟨t, ht⟩ := ih
      exact ⟨e :: t, by simp [popWhileRev, h]; exact ht⟩
    · exact ⟨[], by simp [popWhileRev, h]⟩

theorem popWhile_decomp (ind : Nat) (st : Stack) :
    ∃ u, st = popWhile ind st ++ u := by
  obtain ⟨t, ht⟩ := popWhileRev_suffix ind st.reverse
  refine ⟨t.reverse, ?_⟩
  have := congrArg List.reverse ht
  simpa [popWhile, List.reverse_append] using this

/-! ### Navigation facts -/

theorem insertAt_nonmap (v : BellandeValue) (hm : isMap v = false) :
    ∀ ks key w, insertAt v ks key w = some v := by
  intro ks
  induction ks with
  | nil => intro key w; cases v <;> first | rfl | simp [isMap] at hm
  | cons k ks ih => intro key w; cases v <;>
      first | exact ih key w | simp [isMap] at hm

theorem appendAt_nonmap (v : BellandeValue) (hm : isMap v = false) :
    ∀ ks key w, appendAt v ks key w = some v := by
  intro ks
  induction ks with
  | nil => intro key w; cases v <;> first | rfl | simp [isMap] at hm
  | cons k ks ih => intro key w; cases v <;>
      first | exact ih key w | simp [isMap] at hm

theorem insert_value_shallow (m : List (Str × BellandeValue)) (stack : Stack)
    (key : Str) (v : BellandeValue) (h : stack.tail = []) :
    insert_value (.map m) stack key v = some (.map (minsert m key v)) := by
  unfold insert_value
  rw [h]
  rfl

theorem insert_value_deep (m : List (Str × BellandeValue)) (stack : Stack)
    (key : Str) (v : BellandeValue) (e : Nat × Str) (rest : Stack)
    (h : stack.tail = e :: rest) (w : BellandeValue)
    (hw : mget m e.2 = some w) (hwm : isMap w = false) :
    insert_value (.map m) stack key v = some (.map m) := by
  unfold insert_value
  rw [h]
  simp only [List.map_cons, insertAt, hw, insertAt_nonmap w hwm]
  simp [minsert_self_of_get m e.2 w hw]

theorem appendAt_root_absent (m : List (Str × BellandeValue)) (key : Str)
    (v : BellandeValue) (h : mget m key = none) :
    appendAt (.map m) [] key v = some (.map m) := by
  simp [appendAt, h]

theorem appendAt_root_nonlist (m : List (Str × BellandeValue)) (key : Str)
    (v w : BellandeValue) (h : mget m key = some w) (hw : ∀ l, w ≠ .list l) :
    appendAt (.map m) [] key v = some (.map m) := by
  cases w <;> simp [appendAt, h]
  exact absurd rfl (hw _)

theorem appendAt_root_list (m : List (Str × BellandeValue)) (key : Str)
    (v : BellandeValue) (l : List BellandeValue) (h : mget m key = some (.list l)) :
    appendAt (.map m) [] key v = some (.map (minsert m key (.list (l ++ [v])))) := by
  simp [appendAt, h]

theorem append_to_list_deep (m : List (Str × BellandeValue)) (stack : Stack)
    (key : Str) (v : BellandeValue) (e : Nat × Str) (rest : Stack)
    (h : stack.tail = e :: rest) (w : BellandeValue)
    (hw : mget m e.2 = some w) (hwm : isMap w = false) :
    append_to_list (.map m) stack key v = some (.map m) := by
  unfold append_to_list
  rw [h]
  simp only [List.map_cons, appendAt, hw, appendAt_nonmap w hwm]
  simp [minsert_self_of_get m e.2 w hw]

/-! ### The parser-state invariant -/

theorem parse_value_scalar (s : Str) (v : BellandeValue)
    (h : parse_value s = some v) : isScalar v = true := by
  unfold parse_value at h
  split_ifs at h <;>
    first
      | (injection h with h'; subst h'; rfl)
      | simp at h
      | (rcases hI : parseI64 s with _ | i <;> rw [hI] at h <;>
          (injection h with h'; subst h'; rfl))

theorem flatVal_not_map (v : BellandeValue) (h : flatVal v) : isMap v = false := by
  rcases h with h | ⟨l, rfl, _⟩
  · cases v <;> first | rfl | simp [isScalar] at h
  · rfl

theorem flatVal_scalar (v : BellandeValue) (h : isScalar v = true) : flatVal v :=
  Or.inl h

theorem flatVal_empty_list : flatVal (.list []) := by
  exact Or.inr ⟨[], rfl, by simp⟩

theorem valuesFlat_minsert (m : List (Str × BellandeValue)) (k : Str)
    (v : BellandeValue) (hm : valuesFlat m) (hv : flatVal v) :
    valuesFlat (minsert m k v) := by
  intro p hp
  rcases mem_minsert m k v p hp with h | h
  · subst h; exact hv
  · exact hm p h

theorem stackOk_of_decomp (m : List (Str × BellandeValue)) (p u : Stack)
    (h : stackOk m (p ++ u)) : stackOk m p := by
  intro e he
  rcases p with _ | ⟨a, p'⟩
  · simp at he
  · rcases p' with _ | ⟨b, t⟩
    · simp at he
    · simp only [List.tail_cons, List.head?_cons, Option.some.injEq] at he
      subst he
      exact h _ (by simp)

theorem stackOk_popWhile (m : List (Str × BellandeValue)) (ind : Nat)
    (st : Stack) (h : stackOk m st) : stackOk m (popWhile ind st) := by
  obtain ⟨u, hu⟩ := popWhile_decomp ind st
  exact stackOk_of_decomp m _ u (hu ▸ h)

theorem stackOk_minsert (m : List (Str × BellandeValue)) (k : Str)
    (v : BellandeValue) (st : Stack) (h : stackOk m st) :
    stackOk (minsert m k v) st := by
  intro e he
  exact mget_minsert_isSome m k e.2 v (h e he)

/-! ### Branch equations for `processLine` -/

theorem processLine_blank (root : BellandeValue) (stack : Stack) (line : Str)
    (h : trim line = []) : processLine (root, stack) line = .ok (root, stack) := by
  simp [processLine, h]

theorem processLine_comment (root : BellandeValue) (stack : Stack) (line : Str)
    (h : (trim line).head? = some '#') :
    processLine (root, stack) line = .ok (root, stack) := by
  by_cases hb : trim line = []
  · simp [processLine, hb]
  · simp [processLine, hb, h]

theorem processLine_key (root : BellandeValue) (stack : Stack) (line : Str) (cp : Nat)
    (h1 : trim line ≠ []) (h2 : (trim line).head? ≠ some '#')
    (h3 : findColon (trim line) = some cp) :
    processLine (root, stack) line =
      (if trim ((trim line).drop (cp + 1)) = [] then
        match insert_value root (popWhile (line.length - (trim line).length) stack)
            (trim ((trim line).take cp)) (.list []) with
        | none => .error .navPanic
        | some root' =>
          .ok (root', popWhile (line.length - (trim line).length) stack ++
            [(line.length - (trim line).length, trim ((trim line).take cp))])
      else
        match parse_value (trim ((trim line).drop (cp + 1))) with
        | none => .error .lexPanic
        | some pv =>
          match insert_value root (popWhile (line.length - (trim line).length) stack)
              (trim ((trim line).take cp)) pv with
          | none => .error .navPanic
          | some root' =>
            .ok (root', popWhile (line.length - (trim line).length) stack)) := by
  simp [processLine, h1, h2, h3]

theorem processLine_item (root : BellandeValue) (stack : Stack) (line : Str)
    (h1 : trim line ≠ []) (h2 : (trim line).head? ≠ some '#')
    (h3 : findColon (trim line) = none) (h4 : (trim line).head? = some '-') :
    processLine (root, stack) line =
      (match parse_value (trim ((trim line).drop 1)) with
      | none => .error .lexPanic
      | some pv =>
        match (popWhile (line.length - (trim line).length) stack).getLast? with
        | some e =>
          match append_to_list root (popWhile (line.length - (trim line).length) stack)
              e.2 pv with
          | none => .error .navPanic
          | some root' =>
            .ok (root', popWhile (line.length - (trim line).length) stack)
        | none => .ok (root, popWhile (line.length - (trim line).length) stack)) := by
  simp [processLine, h1, h2, h3, h4]

theorem processLine_malformed (root : BellandeValue) (stack : Stack) (line : Str)
    (h1 : trim line ≠ []) (h2 : (trim line).head? ≠ some '#')
    (h3 : findColon (trim line) = none) (h4 : (trim line).head? ≠ some '-') :
    processLine (root, stack) line =
      .ok (root, popWhile (line.length - (trim line).length) stack) := by
  simp [processLine, h1, h2, h3, h4]

theorem insert_value_spec (m : List (Str × BellandeValue)) (key : Str)
    (v : BellandeValue) (stack : Stack) (hv : flatVal v)
    (hflat : valuesFlat m) (hsok : stackOk m stack) :
    ∃ m', insert_value (.map m) stack key v = some (.map m') ∧ valuesFlat m' ∧
      (∀ k', (mget m k').isSome → (mget m' k').isSome) ∧
      (stack.tail = [] → mget m' key = some v) := by
  rcases htl : stack.tail with _ | ⟨e, rest⟩
  · exact ⟨minsert m key v, insert_value_shallow m stack key v htl,
      valuesFlat_minsert m key v hflat hv,
      fun k' h => mget_minsert_isSome m key k' v h,
      fun _ => mget_minsert_self m key v⟩
  · have he : (mget m e.2).isSome := hsok e (by rw [htl]; rfl)
    obtain ⟨w, hw⟩ := Option.isSome_iff_exists.mp he
    have hwm : isMap w = false := flatVal_not_map w (hflat _ (mget_mem m e.2 w hw))
    exact ⟨m, insert_value_deep m stack key v e rest htl w hw hwm, hflat,
      fun k' h => h, fun hcontra => by cases hcontra⟩

theorem append_to_list_spec (m : List (Str × BellandeValue)) (key : Str)
    (v : BellandeValue) (stack : Stack) (hsc : isScalar v = true)
    (hflat : valuesFlat m) (hsok : stackOk m stack) :
    ∃ m', append_to_list (.map m) stack key v = some (.map m') ∧ valuesFlat m' ∧
      (∀ k', (mget m k').isSome → (mget m' k').isSome) := by
  rcases htl : stack.tail with _ | ⟨e, rest⟩
  · have hred : append_to_list (.map m) stack key v = appendAt (.map m) [] key v := by
      unfold append_to_list
      rw [htl]
      rfl
    rw [hred]
    rcases hg : mget m key with _ | w
    · exact ⟨m, appendAt_root_absent m key v hg, hflat, fun k' h => h⟩
    · rcases w with s | i | f | b | _ | l | mm
      case list =>
        refine ⟨minsert m key (.list (l ++ [v])), appendAt_root_list m key v l hg,
          ?_, fun k' h => mget_minsert_isSome m key k' _ h⟩
        apply valuesFlat_minsert m key _ hflat
        right
        refine ⟨l ++ [v], rfl, ?_⟩
        intro x hx
        rcases List.mem_append.mp hx with hx | hx
        · have hm := hflat _ (mget_mem m key _ hg)
          rcases hm with hsc' | ⟨l', hl', hall⟩
          · simp [isScalar] at hsc'
          · injection hl' with hl''
            subst hl''
            exact hall x hx
        · rw [List.mem_singleton.mp hx]
          exact hsc
      all_goals exact ⟨m, appendAt_root_nonlist m key v _ hg (fun l h => by cases h),
        hflat, fun k' h => h⟩
  · have he : (mget m e.2).isSome := hsok e (by rw [htl]; rfl)
    obtain ⟨w, hw⟩ := Option.isSome_iff_exists.mp he
    have hwm : isMap w = false := flatVal_not_map w (hflat _ (mget_mem m e.2 w hw))
    exact ⟨m, append_to_list_deep m stack key v e rest htl w hw hwm, hflat,
      fun k' h => h⟩

theorem stackOk_transfer (m m' : List (Str × BellandeValue)) (st : Stack)
    (hpres : ∀ k', (mget m k').isSome → (mget m' k').isSome)
    (h : stackOk m st) : stackOk m' st :=
  fun e he => hpres e.2 (h e he)

theorem stackOk_push (m' : List (Str × BellandeValue)) (p : Stack) (x : Nat × Str)
    (hsok : stackOk m' p) (hx : p.tail = [] → (mget m' x.2).isSome) :
    stackOk m' (p ++ [x]) := by
  intro e he
  rcases p with _ | ⟨a, p'⟩
  · simp at he
  · rcases p' with _ | ⟨b, t⟩
    · simp only [List.cons_append, List.nil_append, List.tail_cons,
        List.head?_cons, Option.some.injEq] at he
      subst he
      exact hx rfl
    · simp only [List.cons_append, List.tail_cons, List.head?_cons,
        Option.some.injEq] at he
      subst he
      exact hsok _ (by simp)

theorem processLine_inv (stack : Stack) (line : Str)
    (m : List (Str × BellandeValue)) (hflat : valuesFlat m)
    (hsok : stackOk m stack) :
    processLine (.map m, stack) line ≠ .error .navPanic ∧
    ∀ st', processLine (.map m, stack) line = .ok st' → InvState st' := by
  by_cases hb : trim line = []
  · rw [processLine_blank _ _ _ hb]
    refine ⟨by simp, fun st' h' => ?_⟩
    injection h' with h''
    subst h''
    exact ⟨m, rfl, hflat, hsok⟩
  by_cases hc : (trim line).head? = some '#'
  · rw [processLine_comment _ _ _ hc]
    refine ⟨by simp, fun st' h' => ?_⟩
    injection h' with h''
    subst h''
    exact ⟨m, rfl, hflat, hsok⟩
  have hsok' : stackOk m (popWhile (line.length - (trim line).length) stack) :=
    stackOk_popWhile m _ stack hsok
  rcases hfc : findColon (trim line) with _ | cp
  · by_cases hd : (trim line).head? = some '-'
    · rw [processLine_item _ _ _ hb hc hfc hd]
      rcases hpv : parse_value (trim ((trim line).drop 1)) with _ | pv
      · exact ⟨by simp, fun st' h' => by simp at h'⟩
      have hsc := parse_value_scalar _ _ hpv
      rcases hlast : (popWhile (line.length - (trim line).length) stack).getLast?
        with _ | e
      · refine ⟨by simp, fun st' h' => ?_⟩
        simp only [Except.ok.injEq] at h'
        subst h'
        exact ⟨m, rfl, hflat, hsok'⟩
      · obtain ⟨m', hm', hflat', hpres⟩ :=
          append_to_list_spec m e.2 pv
            (popWhile (line.length - (trim line).length) stack) hsc hflat hsok'
        simp only [hm']
        refine ⟨by simp, fun st' h' => ?_⟩
        simp only [Except.ok.injEq] at h'
        subst h'
        exact ⟨m', rfl, hflat', stackOk_transfer m m' _ hpres hsok'⟩
    · rw [processLine_malformed _ _ _ hb hc hfc hd]
      refine ⟨by simp, fun st' h' => ?_⟩
      simp only [Except.ok.injEq] at h'
      subst h'
      exact ⟨m, rfl, hflat, hsok'⟩
  · rw [processLine_key _ _ _ cp hb hc hfc]
    by_cases hval : trim ((trim line).drop (cp + 1)) = []
    · rw [if_pos hval]
      obtain ⟨m', hm', hflat', hpres, hkey⟩ :=
        insert_value_spec m (trim ((trim line).take cp)) (.list [])
          (popWhile (line.length - (trim line).length) stack)
          flatVal_empty_list hflat hsok'
      simp only [hm']
      refine ⟨by simp, fun st' h' => ?_⟩
      simp only [Except.ok.injEq] at h'
      subst h'
      refine ⟨m', rfl, hflat', ?_⟩
      apply stackOk_push
      · exact stackOk_transfer m m' _ hpres hsok'
      · intro htail
        have hk := hkey htail
        simp [hk]
    · rw [if_neg hval]
      rcases hpv : parse_value (trim ((trim line).drop (cp + 1))) with _ | pv
      · exact ⟨by simp, fun st' h' => by simp at h'⟩
      have hsc := parse_value_scalar _ _ hpv
      obtain ⟨m', hm', hflat', hpres, _⟩ :=
        insert_value_spec m (trim ((trim line).take cp)) pv
          (popWhile (line.length - (trim line).length) stack)
          (flatVal_scalar pv hsc) hflat hsok'
      simp only [hm']
      refine ⟨by simp, fun st' h' => ?_⟩
      simp only [Except.ok.injEq] at h'
      subst h'
      exact ⟨m', rfl, hflat', stackOk_transfer m m' _ hpres hsok'⟩

theorem parseSteps_inv (ls : List Str) : ∀ st, InvState st →
    parseSteps st ls ≠ .error .navPanic ∧
    ∀ st', parseSteps st ls = .ok st' → InvState st' := by
  induction ls with
  | nil =>
    intro st h
    refine ⟨by simp [parseSteps], fun st' h' => ?_⟩
    simp only [parseSteps, Except.ok.injEq] at h'
    subst h'
    exact h
  | cons l ls ih =>
    intro st h
    obtain ⟨m, hroot, hflat, hsok⟩ := h
    obtain ⟨st1, st2⟩ := st
    simp only at hroot
    subst hroot
    have hstep := processLine_inv st2 l m hflat hsok
    rcases hres : processLine (.map m, st2) l with e | stNext
    · refine ⟨?_, ?_⟩
      · intro hcontra
        rw [show parseSteps ((.map m : BellandeValue), st2) (l :: ls) = .error e from by
          simp [parseSteps, hres]] at hcontra
        injection hcontra with h''
        subst h''
        exact hstep.1 hres
      · intro st' h'
        rw [show parseSteps ((.map m : BellandeValue), st2) (l :: ls) = .error e from by
          simp [parseSteps, hres]] at h'
        cases h'
    · have hinv' := hstep.2 stNext hres
      have hrec := ih stNext hinv'
      have hred : parseSteps ((.map m : BellandeValue), st2) (l :: ls) =
          parseSteps stNext ls := by
        simp [parseSteps, hres]
      rw [hred]
      exact hrec

theorem parse_lines_inv (ls : List Str) :
    parse_lines ls ≠ .error .navPanic ∧
    ∀ v, parse_lines ls = .ok v → ∃ m, v = .map m ∧ valuesFlat m := by
  have hinit : InvState initState :=
    ⟨[], rfl, fun p hp => absurd hp (List.not_mem_nil p),
      fun e he => by simp [initState] at he⟩
  have h := parseSteps_inv ls initState hinit
  rcases hres : parseSteps initState ls with e | st
  · refine ⟨?_, ?_⟩
    · intro hcontra
      unfold parse_lines at hcontra
      rw [hres] at hcontra
      injection hcontra with h''
      subst h''
      exact h.1 hres
    · intro v hv
      unfold parse_lines at hv
      rw [hres] at hv
      cases hv
  · obtain ⟨m, hroot, hflat, _⟩ := h.2 st hres
    refine ⟨?_, ?_⟩
    · intro hcontra
      unfold parse_lines at hcontra
      rw [hres] at hcontra
      cases hcontra
    · intro v hv
      unfold parse_lines at hv
      rw [hres] at hv
      injection hv with h''
      exact ⟨m, by rw [← h'']; exact hroot, hflat⟩

/-! ### Canonical scalar tokens -/

theorem natToStr_chars (m : Nat) : ∀ c ∈ natToStr m, isDig c = true := by
  have hall := natToStr_all m
  rw [List.all_eq_true] at hall
  intro c hc
  simpa using hall c hc

theorem intToString_chars (i : Int) :
    ∀ c ∈ intToString i, isWs c = false ∧ c ≠ ':' := by
  intro c hc
  by_cases hneg : i < 0
  · rw [show intToString i = '-' :: natToStr i.natAbs from by simp [intToString, hneg]] at hc
    rcases List.mem_cons.mp hc with hc | hc
    · subst hc; exact ⟨by decide, by decide⟩
    · have hf := isDig_token_facts c (natToStr_chars i.natAbs c hc)
      exact ⟨hf.1, hf.2.1⟩
  · rw [show intToString i = natToStr i.toNat from by simp [intToString, hneg]] at hc
    have hf := isDig_token_facts c (natToStr_chars i.toNat c hc)
    exact ⟨hf.1, hf.2.1⟩

theorem scalar_format_facts (fd : Str → Str) (v : BellandeValue) (h : scalarOkValue v) :
    format_value fd v ≠ [] ∧ (∀ c ∈ format_value fd v, isWs c = false ∧ c ≠ ':') ∧
    parse_value (format_value fd v) = some v := by
  rcases h with ⟨i, rfl, hr1, hr2⟩ | ⟨b, rfl⟩ | rfl
  · refine ⟨?_, intToString_chars i, parse_value_intToString i hr1 hr2⟩
    show intToString i ≠ []
    rcases intToString_shape i with ⟨c, rest, hcr, _⟩
    rw [hcr]
    simp
  · cases b
    · exact ⟨show litFalse ≠ [] by decide,
        show ∀ c ∈ litFalse, isWs c = false ∧ c ≠ ':' by decide, rfl⟩
    · exact ⟨show litTrue ≠ [] by decide,
        show ∀ c ∈ litTrue, isWs c = false ∧ c ≠ ':' by decide, rfl⟩
  · exact ⟨show litNull ≠ [] by decide,
      show ∀ c ∈ litNull, isWs c = false ∧ c ≠ ':' by decide, rfl⟩

theorem scalarOkValue_isScalar (v : BellandeValue) (h : scalarOkValue v) :
    isScalar v = true := by
  rcases h with ⟨i, rfl, _, _⟩ | ⟨b, rfl⟩ | rfl <;> rfl

/-! ### `str::lines` and `join("\n")` -/

theorem lastMem (l : Str) (c : Char) (h : l.getLast? = some c) : c ∈ l := by
  rw [← List.head?_reverse] at h
  rcases hrev : l.reverse with _ | ⟨a, t⟩
  · rw [hrev] at h; simp at h
  · rw [hrev] at h
    simp only [List.head?_cons, Option.some.injEq] at h
    cases h
    exact List.mem_reverse.mp (by rw [hrev]; exact List.mem_cons_self _ _)

theorem getLast?_append_right (l t : Str) (h : t ≠ []) :
    (l ++ t).getLast? = t.getLast? := by
  rw [← List.head?_reverse, ← List.head?_reverse, List.reverse_append]
  rcases hrev : t.reverse with _ | ⟨a, r⟩
  · have := congrArg List.reverse hrev
    simp at this
    exact absurd this h
  · simp [hrev]

theorem splitNl_no_nl : ∀ l : Str, ('\n') ∉ l → splitNl l = [l] := by
  intro l
  induction l with
  | nil => intro _; rfl
  | cons c t ih =>
    intro h
    have hc : c ≠ '\n' := fun hcc => h (hcc ▸ List.mem_cons_self c t)
    have ht : ('\n') ∉ t := fun htt => h (List.mem_cons_of_mem c htt)
    simp [splitNl, hc, ih ht]

theorem splitNl_append : ∀ l rest : Str, ('\n') ∉ l →
    splitNl (l ++ '\n' :: rest) = l :: splitNl rest := by
  intro l
  induction l with
  | nil => intro rest _; simp [splitNl]
  | cons c t ih =>
    intro rest h
    have hc : c ≠ '\n' := fun hcc => h (hcc ▸ List.mem_cons_self c t)
    have ht : ('\n') ∉ t := fun htt => h (List.mem_cons_of_mem c htt)
    simp [splitNl, hc, ih rest ht]

theorem joinNL_ne_nil (l : Str) (ls : List Str) (h : l ≠ []) :
    joinNL (l :: ls) ≠ [] := by
  cases ls
  · simpa [joinNL]
  · simp [joinNL]

theorem joinNL_cons_cons (l m2 : Str) (ls : List Str) :
    joinNL (l :: m2 :: ls) = l ++ '\n' :: joinNL (m2 :: ls) := by
  simp [joinNL]

theorem joinNL_getLast_ne : ∀ L : List Str,
    (∀ l ∈ L, l ≠ [] ∧ ('\n') ∉ l) → L ≠ [] →
    (joinNL L).getLast? ≠ some '\n' := by
  intro L
  induction L with
  | nil => intro _ hL; cases hL rfl
  | cons l ls ih =>
    intro h _
    rcases ls with _ | ⟨m2, ls'⟩
    · intro hc
      simp only [joinNL] at hc
      exact (h l (by simp)).2 (lastMem l '\n' hc)
    · have hne : joinNL (m2 :: ls') ≠ [] := joinNL_ne_nil m2 ls' (h m2 (by simp)).1
      rw [joinNL_cons_cons,
        getLast?_append_right l ('\n' :: joinNL (m2 :: ls')) (by simp),
        show ('\n' :: joinNL (m2 :: ls')) = ['\n'] ++ joinNL (m2 :: ls') from rfl,
        getLast?_append_right _ _ hne]
      exact ih (fun x hx => h x (List.mem_cons_of_mem l hx)) (by simp)

theorem splitNl_joinNL : ∀ L : List Str,
    (∀ l ∈ L, ('\n') ∉ l) → L ≠ [] → splitNl (joinNL L) = L := by
  intro L
  induction L with
  | nil => intro _ hL; cases hL rfl
  | cons l ls ih =>
    intro h _
    rcases ls with _ | ⟨m2, ls'⟩
    · simp only [joinNL]
      exact splitNl_no_nl l (h l (by simp))
    · rw [joinNL_cons_cons, splitNl_append l _ (h l (by simp))]
      congr 1
      exact ih (fun x hx => h x (List.mem_cons_of_mem l hx)) (by simp)

theorem stripCr_id (l : Str) (h : l.getLast? ≠ some '\r') : stripCr l = l := by
  simp [stripCr, h]

theorem map_stripCr_id : ∀ L : List Str, (∀ l ∈ L, l.getLast? ≠ some '\r') →
    L.map stripCr = L := by
  intro L
  induction L with
  | nil => intro _; rfl
  | cons l ls ih =>
    intro h
    rw [List.map_cons, stripCr_id l (h l (by simp)),
      ih (fun x hx => h x (List.mem_cons_of_mem l hx))]

theorem strLines_joinNL (L : List Str)
    (h : ∀ l ∈ L, l ≠ [] ∧ ('\n') ∉ l ∧ l.getLast? ≠ some '\r') (hL : L ≠ []) :
    strLines (joinNL L) = L := by
  have h1 : ∀ l ∈ L, l ≠ [] ∧ ('\n') ∉ l := fun l hl => ⟨(h l hl).1, (h l hl).2.1⟩
  have hne : joinNL L ≠ [] := by
    rcases L with _ | ⟨l, ls⟩
    · cases hL rfl
    · exact joinNL_ne_nil l ls (h1 l (by simp)).1
  have hlast := joinNL_getLast_ne L h1 hL
  rw [strLines, if_neg hne, if_neg hlast, splitNl_joinNL L (fun l hl => (h1 l hl).2) hL]
  exact map_stripCr_id L (fun l hl => (h l hl).2.2)

/-! ### Canonical key lines -/

theorem headMem (l : Str) (c : Char) (h : l.head? = some c) : c ∈ l := by
  rcases l with _ | ⟨a, t⟩
  · simp at h
  · simp only [List.head?_cons, Option.some.injEq] at h
    cases h
    exact List.mem_cons_self _ _

theorem take_len_append (a b : Str) : (a ++ b).take a.length = a := by
  induction a with
  | nil => rfl
  | cons c t ih => simp [ih]

theorem drop_len_append (a b : Str) : (a ++ b).drop a.length = b := by
  induction a with
  | nil => rfl
  | cons c t ih => simp [ih]

theorem findColon_append : ∀ k rest : Str, (∀ c ∈ k, c ≠ ':') →
    findColon (k ++ ':' :: rest) = some k.length := by
  intro k
  induction k with
  | nil => intro rest _; simp [findColon]
  | cons c t ih =>
    intro rest h
    have hc : c ≠ ':' := h c (List.mem_cons_self _ _)
    simp [findColon, hc, ih rest (fun x hx => h x (List.mem_cons_of_mem c hx))]

theorem mget_append_none (a b : List (Str × BellandeValue)) (key : Str)
    (ha : mget a key = none) (hb : mget b key = none) :
    mget (a ++ b) key = none := by
  induction a with
  | nil => simpa
  | cons p t ih =>
    obtain ⟨k0, w0⟩ := p
    by_cases h0 : k0 = key
    · subst h0; simp [mget] at ha
    · simp only [mget, if_neg h0] at ha
      simp [mget, h0, ih ha]

theorem processLine_scalar_entry (acc : List (Str × BellandeValue)) (stack : Stack)
    (k t : Str) (v : BellandeValue) (hk : plainKey k)
    (ht : t ≠ []) (htc : ∀ c ∈ t, isWs c = false ∧ c ≠ ':')
    (hpv : parse_value t = some v) :
    processLine (.map acc, stack) (k ++ ':' :: ' ' :: ' ' :: t) =
      .ok (.map (minsert acc k v), []) := by
  have hhead : ∀ c, (k ++ ':' :: ' ' :: ' ' :: t).head? = some c → isWs c = false := by
    intro c hc
    rcases k with _ | ⟨k0, ks⟩
    · simp only [List.nil_append, List.head?_cons, Option.some.injEq] at hc
      cases hc
      decide
    · simp only [List.cons_append, List.head?_cons, Option.some.injEq] at hc
      cases hc
      exact (hk _ (List.mem_cons_self _ _)).1
  have hlastc : ∀ c, (k ++ ':' :: ' ' :: ' ' :: t).getLast? = some c → isWs c = false := by
    intro c hc
    rw [show k ++ ':' :: ' ' :: ' ' :: t = (k ++ [':', ' ', ' ']) ++ t from by simp,
      getLast?_append_right _ t ht] at hc
    exact (htc c (lastMem t c hc)).1
  have htrim : trim (k ++ ':' :: ' ' :: ' ' :: t) = k ++ ':' :: ' ' :: ' ' :: t :=
    trim_of_ends _ hhead hlastc
  have hne : trim (k ++ ':' :: ' ' :: ' ' :: t) ≠ [] := by
    rw [htrim]
    rcases k with _ | ⟨k0, ks⟩ <;> simp
  have hhash : (trim (k ++ ':' :: ' ' :: ' ' :: t)).head? ≠ some '#' := by
    rw [htrim]
    intro hc
    rcases k with _ | ⟨k0, ks⟩
    · simp at hc
    · simp only [List.cons_append, List.head?_cons, Option.some.injEq] at hc
      exact (hk k0 (List.mem_cons_self _ _)).2.2 hc
  have hfc : findColon (trim (k ++ ':' :: ' ' :: ' ' :: t)) = some k.length := by
    rw [htrim]
    exact findColon_append k _ (fun c hc => (hk c hc).2.1)
  have hlen : (k ++ ':' :: ' ' :: ' ' :: t).length -
      (trim (k ++ ':' :: ' ' :: ' ' :: t)).length = 0 := by
    rw [htrim]
    exact Nat.sub_self _
  have htake : trim ((trim (k ++ ':' :: ' ' :: ' ' :: t)).take k.length) = k := by
    rw [htrim, show k ++ ':' :: ' ' :: ' ' :: t = k ++ (':' :: ' ' :: ' ' :: t) from rfl,
      take_len_append]
    exact trim_of_ends k (fun c hc => (hk c (headMem k c hc)).1)
      (fun c hc => (hk c (lastMem k c hc)).1)
  have hdrop : trim ((trim (k ++ ':' :: ' ' :: ' ' :: t)).drop (k.length + 1)) = t := by
    rw [htrim, show k ++ ':' :: ' ' :: ' ' :: t = (k ++ [':']) ++ (' ' :: ' ' :: t) from
      by simp, show k.length + 1 = (k ++ [':']).length from by simp, drop_len_append]
    have h1 : trimLeft (' ' :: ' ' :: t) = trimLeft t := by
      simp [trimLeft, List.dropWhile_cons, show isWs ' ' = true from rfl]
    rw [trim, h1, trimLeft_of_head t (fun c hc => (htc c (headMem t c hc)).1)]
    exact trimRight_of_getLast t (fun c hc => (htc c (lastMem t c hc)).1)
  rw [processLine_key (.map acc) stack _ k.length hne hhash hfc, hdrop, if_neg ht,
    hpv, htake, hlen, popWhile_zero]
  rfl

theorem mapLines_scalar (fd : Str → Str) : ∀ kvs : List (Str × BellandeValue),
    (∀ p ∈ kvs, isScalar p.2 = true) →
    mapLines fd kvs 0 =
      kvs.map (fun p => p.1 ++ ':' :: ' ' :: ' ' :: format_value fd p.2) := by
  intro kvs
  induction kvs with
  | nil => intro _; rfl
  | cons p tl ih =>
    intro h
    obtain ⟨k, v⟩ := p
    have hs : isScalar v = true := h (k, v) (List.mem_cons_self _ _)
    have hvs : valueStrOf fd v 0 = ' ' :: format_value fd v := by
      cases v <;> first | rfl | simp [isScalar] at hs
    have hrest := ih (fun q hq => h q (List.mem_cons_of_mem _ hq))
    simp [mapLines, spaces, hvs, hrest]

theorem parseSteps_scalar_entries (fd : Str → Str) :
    ∀ kvs acc (stack : Stack),
    (∀ p ∈ kvs, plainKey p.1 ∧ scalarOkValue p.2) →
    (∀ p ∈ kvs, mget acc p.1 = none) →
    (kvs.map Prod.fst).Nodup →
    ∃ stackF, parseSteps (.map acc, stack)
      (kvs.map (fun p => p.1 ++ ':' :: ' ' :: ' ' :: format_value fd p.2)) =
      .ok (.map (acc ++ kvs), stackF) := by
  intro kvs
  induction kvs with
  | nil =>
    intro acc stack _ _ _
    exact ⟨stack, by simp [parseSteps]⟩
  | cons p tl ih =>
    intro acc stack hok habs hnd
    obtain ⟨k, v⟩ := p
    have hkv := hok (k, v) (List.mem_cons_self _ _)
    obtain ⟨hfne, hfchars, hfparse⟩ := scalar_format_facts fd v hkv.2
    have hstep := processLine_scalar_entry acc stack k (format_value fd v) v hkv.1
      hfne hfchars hfparse
    have hins : minsert acc k v = acc ++ [(k, v)] :=
      minsert_of_absent acc k v (habs (k, v) (List.mem_cons_self _ _))
    simp only [List.map_cons] at hnd
    rw [List.nodup_cons] at hnd
    have habs' : ∀ q ∈ tl, mget (acc ++ [(k, v)]) q.1 = none := by
      intro q hq
      apply mget_append_none
      · exact habs q (List.mem_cons_of_mem _ hq)
      · have hne : k ≠ q.1 := by
          intro hcontra
          exact hnd.1 (hcontra ▸ List.mem_map_of_mem Prod.fst hq)
        simp [mget, hne]
    obtain ⟨stackF, hrec⟩ := ih (acc ++ [(k, v)]) [] (fun q hq =>
      hok q (List.mem_cons_of_mem _ hq)) habs' hnd.2
    refine ⟨stackF, ?_⟩
    rw [List.map_cons,
      show parseSteps ((.map acc : BellandeValue), stack)
          ((k ++ ':' :: ' ' :: ' ' :: format_value fd v) ::
            tl.map (fun p => p.1 ++ ':' :: ' ' :: ' ' :: format_value fd p.2)) =
        parseSteps (.map (minsert acc k v), [])
          (tl.map (fun p => p.1 ++ ':' :: ' ' :: ' ' :: format_value fd p.2)) from by
        simp [parseSteps, hstep],
      hins, hrec]
    simp

theorem round_trip_scalar_map (fd : Str → Str) (kvs : List (Str × BellandeValue))
    (hok : ∀ p ∈ kvs, plainKey p.1 ∧ scalarOkValue p.2)
    (hnd : (kvs.map Prod.fst).Nodup) :
    parse_lines (strLines (to_bellande_string fd (.map kvs) 0)) = .ok (.map kvs) := by
  have hscal : ∀ p ∈ kvs, isScalar p.2 = true :=
    fun p hp => scalarOkValue_isScalar p.2 (hok p hp).2
  have hser : to_bellande_string fd (.map kvs) 0 =
      joinNL (kvs.map (fun p => p.1 ++ ':' :: ' ' :: ' ' :: format_value fd p.2)) := by
    have h1 : to_bellande_string fd (.map kvs) 0 = joinNL (mapLines fd kvs 0) := by
      simp [to_bellande_string]
    rw [h1, mapLines_scalar fd kvs hscal]
  rw [hser]
  rcases kvs with _ | ⟨p0, tl0⟩
  · rfl
  · have hlines : ∀ l ∈ (p0 :: tl0).map
        (fun p => p.1 ++ ':' :: ' ' :: ' ' :: format_value fd p.2),
        l ≠ [] ∧ ('\n') ∉ l ∧ l.getLast? ≠ some '\r' := by
      intro l hl
      rw [List.mem_map] at hl
      obtain ⟨p, hp, rfl⟩ := hl
      obtain ⟨hfne, hfchars, _⟩ := scalar_format_facts fd p.2 (hok p hp).2
      refine ⟨by simp, ?_, ?_⟩
      · intro hmem
        rcases List.mem_append.mp hmem with hm | hm
        · exact absurd ((hok p hp).1 '\n' hm).1 (by decide)
        · simp only [List.mem_cons] at hm
          rcases hm with hm | hm | hm | hm
          · cases hm
          · cases hm
          · cases hm
          · exact absurd (hfchars '\n' hm).1 (by decide)
      · intro hlast
        rw [show p.1 ++ ':' :: ' ' :: ' ' :: format_value fd p.2
            = (p.1 ++ [':', ' ', ' ']) ++ format_value fd p.2 from by simp,
          getLast?_append_right _ _ hfne] at hlast
        exact absurd (hfchars _ (lastMem _ _ hlast)).1 (by decide)
    rw [strLines_joinNL _ hlines (by simp)]
    obtain ⟨stackF, hrun⟩ := parseSteps_scalar_entries fd (p0 :: tl0) [] [(0, [])]
      hok (fun p _ => rfl) hnd
    unfold parse_lines
    rw [show initState = ((.map [] : BellandeValue), [(0, ([] : Str))]) from rfl, hrun]
    simp

theorem parse_value_total (s : Str) (h : s ≠ [quoteChar]) :
    (parse_value s).isSome = true := by
  unfold parse_value
  split_ifs with h1 h2 h3 h4 h5
  · simp
  · simp
  · simp
  · simp
  · exfalso
    rcases s with _ | ⟨c, t⟩
    · simp at h4
    · rcases t with _ | ⟨c2, t2⟩
      · obtain ⟨hh, _⟩ := h4
        simp only [List.head?_cons, Option.some.injEq] at hh
        exact h (by rw [hh])
      · exact h5 (by simp)
  · rcases parseI64 s with _ | i <;> simp
  · rcases parseI64 s with _ | i <;> simp

/-! ### Claims -/

/-- Claim C1, counterexample.  The claim says `parse(serialize(v)) = v`
for every grammar-reachable tree.  The tree `{a: [1]}` serializes to
`"a: \n  - 1"`: the key line ends in a space, so the parser computes
indent 1 for it (trailing whitespace counts), the synthetic root entry
is not popped, and the later item-line navigation descends *into* the
list and silently drops the append.  The round trip returns `{a: []}`,
not `{a: [1]}`. -/
theorem claim_C1_counterexample :
    parse_lines (strLines (to_bellande_string (fun s => s)
      (.map [(['a'], .list [.int 1])]) 0)) =
      .ok (.map [(['a'], .list [])]) ∧
    (BellandeValue.map [(['a'], BellandeValue.list [])] ≠
      .map [(['a'], .list [.int 1])]) := by
  constructor
  · have hser : to_bellande_string (fun s => s) (.map [(['a'], .list [.int 1])]) 0
        = ['a', ':', ' ', '\n', ' ', ' ', '-', ' ', '1'] := by
      simp [to_bellande_string, mapLines, listLines, valueStrOf, format_value,
        intToString, natToStr, natToStrGo, digitChar, joinNL, spaces]
    rw [hser]
    rfl
  · simp

/-- Claim C1 (amended): the value-level round trip holds for root maps
whose entries have plain keys (no whitespace, colon or hash), pairwise
distinct, and whose values are Integer (in 64-bit range), Boolean or
Null scalars.  Trees with non-empty List values, and String or Float
leaves in general, do not round-trip (see the counterexample). -/
theorem claim_C1_round_trip (fd : Str → Str) (kvs : List (Str × BellandeValue))
    (hok : ∀ p ∈ kvs, plainKey p.1 ∧ scalarOkValue p.2)
    (hnd : (kvs.map Prod.fst).Nodup) :
    parse_lines (strLines (to_bellande_string fd (.map kvs) 0)) = .ok (.map kvs) :=
  round_trip_scalar_map fd kvs hok hnd

/-- Witness for C1: the map `{a: 5, b: true}` round-trips. -/
theorem claim_C1_round_trip_witness :
    parse_lines (strLines (to_bellande_string (fun s => s)
      (.map [(['a'], .int 5), (['b'], .bool true)]) 0)) =
      .ok (.map [(['a'], .int 5), (['b'], .bool true)]) :=
  claim_C1_round_trip (fun s => s) [(['a'], .int 5), (['b'], .bool true)]
    (by
      intro p hp
      simp only [List.mem_cons, List.not_mem_nil, or_false] at hp
      rcases hp with rfl | rfl
      · exact ⟨by unfold plainKey; decide, Or.inl ⟨5, rfl, by decide, by decide⟩⟩
      · exact ⟨by unfold plainKey; decide, Or.inr (Or.inl ⟨true, rfl⟩)⟩)
    (by decide)

/-- Claim C2, counterexample.  The line `"a: 1 "` (one trailing space)
is non-blank and not a comment; the parser's indent value
`line.len() - line.trim().len()` is 1, but the count of leading
whitespace characters is 0. -/
theorem claim_C2_counterexample :
    trim ['a', ':', ' ', '1', ' '] ≠ [] ∧
    (trim ['a', ':', ' ', '1', ' ']).head? ≠ some '#' ∧
    indentOf ['a', ':', ' ', '1', ' '] = 1 ∧
    leadingWs ['a', ':', ' ', '1', ' '] = 0 :=
  ⟨by decide, by decide, by decide, by decide⟩

/-- Claim C2 (amended): for every line, the parser's indent value
`line.len() - line.trim().len()` equals the count of leading whitespace
characters *plus* the count of trailing whitespace characters (of the
remainder after the leading whitespace); trailing whitespace therefore
does affect it, and it equals the leading count exactly when the line
has no trailing whitespace. -/
theorem claim_C2_indent (line : Str) :
    indentOf line = leadingWs line + trailingWs (trimLeft line) := by
  have h1 := length_trimLeft line
  have h2 := length_trimRight (trimLeft line)
  have h3 := leadingWs_le line
  have h4 := trailingWs_le (trimLeft line)
  simp only [indentOf, trim]
  omega

/-- Claim C3 (code bug): the scalar lexer is *not* total.  On the
one-character token `"` both `starts_with('"')` and `ends_with('"')`
hold, the code takes the quote-stripping branch without any length
check, and `value[1..value.len()-1]` is the slice `[1..0]`, which
panics.  Every other token produces exactly one value. -/
theorem claim_C3_lexer_panic :
    parse_value [quoteChar] = none ∧
    ∀ s : Str, s ≠ [quoteChar] → (parse_value s).isSome = true :=
  ⟨rfl, parse_value_total⟩

/-- Witness for C3: the token `x` is not the lone quote and lexes. -/
theorem claim_C3_lexer_panic_witness :
    (['x'] : Str) ≠ [quoteChar] ∧ (parse_value ['x']).isSome = true :=
  ⟨by decide, claim_C3_lexer_panic.2 ['x'] (by decide)⟩

/-- Claim C4, counterexample.  The line `no colon or dash here` is
non-blank, not a comment, has no colon and does not start with a dash,
yet parsing returns the unchanged empty root map with no error of any
kind — the parser has no `MalformedLine` error (its only failure modes
are the two panics). -/
theorem claim_C4_counterexample :
    parse_lines [['n', 'o', ' ', 'c', 'o', 'l', 'o', 'n', ' ', 'o', 'r', ' ',
      'd', 'a', 's', 'h', ' ', 'h', 'e', 'r', 'e']] = .ok (.map []) := rfl

/-- Claim C4 (amended): a non-blank, non-comment line that matches
neither the key-line nor the item-line grammar is silently skipped: the
tree is returned unchanged and no error is produced (the dedent loop
still pops the scope stack first). -/
theorem claim_C4_silent_skip (root : BellandeValue) (stack : Stack) (line : Str)
    (h1 : trim line ≠ []) (h2 : (trim line).head? ≠ some '#')
    (h3 : findColon (trim line) = none) (h4 : (trim line).head? ≠ some '-') :
    processLine (root, stack) line = .ok (root, popWhile (indentOf line) stack) :=
  processLine_malformed root stack line h1 h2 h3 h4

/-- Witness for C4: processing the malformed line `oops`. -/
theorem claim_C4_silent_skip_witness :
    processLine (.map [], [(0, ([] : Str))]) ['o', 'o', 'p', 's'] =
      .ok (.map [], popWhile (indentOf ['o', 'o', 'p', 's']) [(0, ([] : Str))]) :=
  claim_C4_silent_skip (.map []) [(0, ([] : Str))] ['o', 'o', 'p', 's']
    (by decide) (by decide) (by decide) (by decide)

/-- Claim C6, counterexample.  The dedent loop has no "more than the
root entry" guard: it pops while the stack is non-empty and the top
indent is `≥` the line indent.  Parsing the single line `a: 1` (indent
0) therefore pops the synthetic root entry `(0, "")` itself, and the
parse ends with an *empty* scope stack — the root entry does not remain
at the bottom. -/
theorem claim_C6_counterexample :
    parseSteps initState [['a', ':', ' ', '1']] =
      .ok (.map [(['a'], .int 1)], []) := rfl

/-- Claim C6 (amended): the dedent loop pops while the stack is
non-empty and the top entry's indent is `≥` the line's indent, with no
root guard; consequently on any line of indent 0 it empties the whole
stack, the synthetic root entry included. -/
theorem claim_C6_dedent (stack : Stack) : popWhile 0 stack = [] :=
  popWhile_zero stack

/-- Claim C7, counterexample.  The quoted token `"123"` lexes to
`String("123")`; the canonical formatter renders that string bare (it
has no space or colon and is not a boolean/null literal), and re-lexing
`123` yields `Integer(123)` — lexing is not idempotent under the
formatter. -/
theorem claim_C7_counterexample :
    parse_value [quoteChar, '1', '2', '3', quoteChar] =
      some (.str ['1', '2', '3']) ∧
    parse_value (format_value (fun s => s) (.str ['1', '2', '3'])) =
      some (.int 123) ∧
    (BellandeValue.int 123 ≠ .str ['1', '2', '3']) :=
  ⟨rfl, rfl, by simp⟩

/-- Claim C7 (amended): lexing is idempotent under the canonical
formatter for the scalars of variant Integer (64-bit range), Boolean
and Null; it fails for some String scalars (see the counterexample) and
for Float values whose decimal rendering re-lexes as an integer. -/
theorem claim_C7_scalar_idempotent (fd : Str → Str) (v : BellandeValue)
    (h : scalarOkValue v) : parse_value (format_value fd v) = some v :=
  (scalar_format_facts fd v h).2.2

/-- Witness for C7: `Integer(5)` formats to `5` and re-lexes to
`Integer(5)`. -/
theorem claim_C7_scalar_idempotent_witness :
    parse_value (format_value (fun s => s) (.int 5)) = some (.int 5) :=
  claim_C7_scalar_idempotent (fun s => s) (.int 5)
    (Or.inl ⟨5, rfl, by decide, by decide⟩)

/-- Claim C8 (confirmed): the lexer's recognition rules apply in order
with first match winning: `TRUE`, `True` and `true` all lex to
`Boolean(true)` (case-insensitive boolean before everything), the bare
token `42` lexes to `Integer(42)`, and the quoted token `"42"` lexes to
`String("42")` (quote stripping before integer parsing). -/
theorem claim_C8_precedence :
    parse_value ['T', 'R', 'U', 'E'] = some (.bool true) ∧
    parse_value ['T', 'r', 'u', 'e'] = some (.bool true) ∧
    parse_value ['t', 'r', 'u', 'e'] = some (.bool true) ∧
    parse_value ['4', '2'] = some (.int 42) ∧
    parse_value [quoteChar, '4', '2', quoteChar] = some (.str ['4', '2']) :=
  ⟨rfl, rfl, rfl, rfl, rfl⟩

/-- Claim C9 (confirmed): for every input line sequence the
`get_mut(..).unwrap()` lookups of path navigation never panic, and when
parsing returns a tree at all, that tree is a single root map whose
stored values are all scalars or lists of scalars — no map is ever
nested inside a list or another map. -/
theorem claim_C9_single_map (ls : List Str) :
    parse_lines ls ≠ .error .navPanic ∧
    ∀ v, parse_lines ls = .ok v → ∃ m, v = .map m ∧ ∀ p ∈ m, flatVal p.2 := by
  have h := parse_lines_inv ls
  exact ⟨h.1, fun v hv => h.2 v hv⟩

/-- Witness for C9 at the one-line document `k: 7`. -/
theorem claim_C9_single_map_witness :
    parse_lines [['k', ':', ' ', '7']] ≠ .error .navPanic ∧
    ∃ m, (BellandeValue.map [(['k'], BellandeValue.int 7)]) = .map m ∧
      ∀ p ∈ m, flatVal p.2 :=
  ⟨(claim_C9_single_map [['k', ':', ' ', '7']]).1,
   (claim_C9_single_map [['k', ':', ' ', '7']]).2 (.map [(['k'], .int 7)]) rfl⟩

/-- Claim C10, counterexample.  The claim says a list-item line with an
empty scope stack is a silent no-op; but `parse_value` runs *before*
the stack check, so the item line `- "` (whose value token is the lone
quote) panics in the lexer instead of being a no-op, even though the
stack is empty at that point. -/
theorem claim_C10_counterexample :
    parse_lines [['-', ' ', quoteChar]] = .error .lexPanic ∧
    popWhile (indentOf ['-', ' ', quoteChar]) [(0, ([] : Str))] = [] :=
  ⟨rfl, rfl⟩

/-- Claim C10 (amended): for a list-item line whose value token lexes
without panicking, if the popped scope stack is empty, or it is a
single entry whose key is absent from the root map, or that key's value
is not a List, then the line is a silent no-op: the tree is unchanged
and no error is produced. -/
theorem claim_C10_item_noop (m : List (Str × BellandeValue)) (stack : Stack)
    (line : Str) (v : BellandeValue)
    (h1 : trim line ≠ []) (h2 : findColon (trim line) = none)
    (h3 : (trim line).head? = some '-')
    (h4 : parse_value (trim ((trim line).drop 1)) = some v) :
    (popWhile (indentOf line) stack = [] →
      processLine (.map m, stack) line = .ok (.map m, [])) ∧
    (∀ n k, popWhile (indentOf line) stack = [(n, k)] → mget m k = none →
      processLine (.map m, stack) line = .ok (.map m, [(n, k)])) ∧
    (∀ n k w, popWhile (indentOf line) stack = [(n, k)] → mget m k = some w →
      (∀ l, w ≠ .list l) →
      processLine (.map m, stack) line = .ok (.map m, [(n, k)])) := by
  have hh : (trim line).head? ≠ some '#' := by rw [h3]; simp
  have heq := processLine_item (.map m) stack line h1 hh h2 h3
  refine ⟨?_, ?_, ?_⟩
  · intro hpop
    have hpop' : popWhile (line.length - (trim line).length) stack = [] := hpop
    rw [heq, h4, hpop']
    rfl
  · intro n k hpop hget
    have hpop' : popWhile (line.length - (trim line).length) stack = [(n, k)] := hpop
    have happ : append_to_list (.map m) [(n, k)] k v = some (.map m) :=
      appendAt_root_absent m k v hget
    rw [heq, h4, hpop']
    simp [happ]
  · intro n k w hpop hget hnl
    have hpop' : popWhile (line.length - (trim line).length) stack = [(n, k)] := hpop
    have happ : append_to_list (.map m) [(n, k)] k v = some (.map m) :=
      appendAt_root_nonlist m k v w hget hnl
    rw [heq, h4, hpop']
    simp [happ]

/-- Witness for C10: the item line `- x` with scope stack `[(5, k)]`
(popped to empty at indent 0) leaves the tree unchanged. -/
theorem claim_C10_item_noop_witness :
    processLine (.map [], [(5, ['k'])]) ['-', ' ', 'x'] = .ok (.map [], []) :=
  (claim_C10_item_noop [] [(5, ['k'])] ['-', ' ', 'x'] (.str ['x'])
    (by decide) (by decide) (by decide) rfl).1 rfl
